import Mathlib

/-!
# ercy-bot: the transfer queue store (`src/db/DatabaseClient.js`)

A shallow embedding of `DatabaseClient` and of the Redis commands it issues.

* The Redis connection is the explicit state `RedisClient`; every method of
  `DatabaseClient` takes the state and returns its reply together with the
  state after the call.
* The keyspace is kept per value type (string values, hashes, sorted sets),
  each indexed by the full Redis key, plus the time-to-live recorded per key.
  The three kinds of key the client builds are pairwise different
  (`makeTransferKeyFromId_ne_transfersKey` and the two lemmas after it), so no
  command of the client meets a value of another type.
* Time does not pass in the model: `expire` and `setex` record the TTL, nothing
  ever lapses.
* `DatabaseUtil` (`src/db/DatabaseUtil.js`) is not among the sources.  Its
  functions are the fields of the structure `DatabaseUtil`; what the
  specification requires of them is stated as separate predicates.
-/

namespace ErcyBot

/-! ## JavaScript values -/

/-- A field value of a transfer object: a number or a string. -/
inductive JsValue where
  | num (n : Nat)
  | str (s : String)
  deriving DecidableEq, Repr

/-- The result of `Number(...)`: a non-negative integer or `NaN`. -/
inductive JsNumber where
  | int (n : Nat)
  | NaN
  deriving DecidableEq, Repr

/-- Errors a method can fail with. -/
inductive JsError where
  /-- Destructuring `null` (`const { ... } = null`). -/
  | typeError
  deriving DecidableEq, Repr

/-- The character of a decimal digit. -/
def digitChar (d : Nat) : Char := Char.ofNat (48 + d)

/-- The decimal digits of `n`, least significant first; `fuel` bounds the recursion. -/
def decimalRev : Nat → Nat → List Char
  | 0, _ => []
  | fuel + 1, n =>
    if n < 10 then [digitChar n] else digitChar (n % 10) :: decimalRev fuel (n / 10)

/-- JavaScript `String(n)` for a non-negative integer: its decimal digits.
(From `1e21` on JavaScript prints an exponent form, which `Number` reads back
to the same value; the model keeps the digits.) -/
def jsString (n : Nat) : String := ⟨(decimalRev (n + 1) n).reverse⟩

/-- The value of a decimal digit character. -/
def digitValue (c : Char) : Option Nat :=
  if 48 ≤ c.toNat ∧ c.toNat ≤ 57 then some (c.toNat - 48) else none

/-- Reads a sequence of decimal digits, most significant first. -/
def parseDecimal (cs : List Char) : Option Nat :=
  cs.foldl (fun acc c => acc.bind (fun a => (digitValue c).map (fun d => a * 10 + d))) (some 0)

/-- JavaScript `Number(s)` on a string: the empty string is `0`, a string of decimal
digits is its value, and every other string is `NaN` (signs, fractions,
exponents, radix prefixes and white space are outside the model). -/
def Number (s : String) : JsNumber :=
  match parseDecimal s.data with
  | some n => JsNumber.int n
  | none => JsNumber.NaN

/-- JavaScript `Number(x)` where `x` may be `undefined`: `Number(undefined)` is `NaN`. -/
def NumberOf : Option String → JsNumber
  | some s => Number s
  | none => JsNumber.NaN

/-- The string a Redis command argument is sent as. -/
def JsValue.toArg : JsValue → String
  | JsValue.num n => jsString n
  | JsValue.str s => s

/-- JavaScript `[a, b].join(sep)`. -/
def join2 (a b sep : String) : String := a ++ sep ++ b

/-! ## Transfers -/

/-- A token-transfer event as handed to `addTransfer`. -/
structure Transfer where
  blockNumber : Nat
  logIndex : Nat
  transactionHash : String
  «from» : String
  «to» : String
  value : String
  unit : String
  deriving DecidableEq, Repr

/-- The object `nextTransfer` returns: two numbers and five properties read
from the stored hash (`none` is `undefined`). -/
structure NextTransfer where
  blockNumber : JsNumber
  logIndex : JsNumber
  transactionHash : Option String
  «from» : Option String
  «to» : Option String
  value : Option String
  unit : Option String
  deriving DecidableEq, Repr

/-- JavaScript `Object.entries(transfer)`, in the order of the fields. -/
def Transfer.entries (t : Transfer) : List (List JsValue) :=
  [[JsValue.str "blockNumber", JsValue.num t.blockNumber],
   [JsValue.str "logIndex", JsValue.num t.logIndex],
   [JsValue.str "transactionHash", JsValue.str t.transactionHash],
   [JsValue.str "from", JsValue.str t.«from»],
   [JsValue.str "to", JsValue.str t.«to»],
   [JsValue.str "value", JsValue.str t.value],
   [JsValue.str "unit", JsValue.str t.unit]]

/-- The `(blockNumber, logIndex)` pair of a transfer. -/
def Transfer.pair (t : Transfer) : Nat × Nat := (t.blockNumber, t.logIndex)

/-- Event order on pairs: lower block number first, then lower log index. -/
def pairLe (a b : Nat × Nat) : Prop := a.1 < b.1 ∨ (a.1 = b.1 ∧ a.2 ≤ b.2)

/-- Strict event order on pairs. -/
def pairLt (a b : Nat × Nat) : Prop := a.1 < b.1 ∨ (a.1 = b.1 ∧ a.2 < b.2)

instance (a b : Nat × Nat) : Decidable (pairLe a b) := by
  unfold pairLe; infer_instance

instance (a b : Nat × Nat) : Decidable (pairLt a b) := by
  unfold pairLt; infer_instance

/-- The object `nextTransfer` returns for a stored transfer `t`. -/
def Transfer.toNext (t : Transfer) : NextTransfer :=
  { blockNumber := JsNumber.int t.blockNumber
    logIndex := JsNumber.int t.logIndex
    transactionHash := some t.transactionHash
    «from» := some t.«from»
    «to» := some t.«to»
    value := some t.value
    unit := some t.unit }

/-! ## The Redis commands used by the client -/

/-- Byte-wise comparison of two members, as Redis orders members of equal
score.  Code points are compared; on UTF-8 text this is the byte order. -/
def lexLe : List Nat → List Nat → Bool
  | [], _ => true
  | _ :: _, [] => false
  | a :: as, b :: bs => decide (a < b) || (decide (a = b) && lexLe as bs)

/-- The code points of a member. -/
def memberCodes (m : String) : List Nat := m.data.map Char.toNat

/-- Order of a sorted set: by score, members of equal score byte-wise. -/
def zorder (a b : String × Int) : Prop :=
  a.2 < b.2 ∨ (a.2 = b.2 ∧ lexLe (memberCodes a.1) (memberCodes b.1) = true)

instance : DecidableRel zorder := fun a b => by
  unfold zorder; infer_instance

/-- The state of the Redis server as the client sees it. -/
structure RedisClient where
  /-- String values (`SETEX`, `GET`). -/
  strings : String → Option String
  /-- Hashes (`HMSET`, `HGETALL`); `none` when the key holds no hash. -/
  hashes : String → Option (List (String × String))
  /-- Sorted sets as (member, score) entries; `[]` when the key holds none. -/
  zsets : String → List (String × Int)
  /-- Time-to-live recorded for a key, in seconds. -/
  ttl : String → Option Nat

namespace RedisClient

/-- A server holding no key. -/
def empty : RedisClient :=
  { strings := fun _ => none, hashes := fun _ => none, zsets := fun _ => [], ttl := fun _ => none }

/-- Redis `GET key`. -/
def get (r : RedisClient) (key : String) : Option String := r.strings key

/-- Redis `SETEX key seconds value`. -/
def setex (r : RedisClient) (key : String) (seconds : Nat) (value : String) : RedisClient :=
  { r with strings := Function.update r.strings key (some value)
           ttl := Function.update r.ttl key (some seconds) }

/-- Redis `EXISTS key`: `1` when the key holds a value, else `0`. -/
def «exists» (r : RedisClient) (key : String) : Nat :=
  if (r.strings key).isSome || (r.hashes key).isSome || !(r.zsets key).isEmpty then 1 else 0

/-- Redis `EXPIRE key seconds`: records the TTL of an existing key. -/
def expire (r : RedisClient) (key : String) (seconds : Nat) : RedisClient :=
  if r.«exists» key = 1 then { r with ttl := Function.update r.ttl key (some seconds) } else r

/-- Sets one field of a hash, replacing an earlier value of the field. -/
def hashSet : List (String × String) → String → String → List (String × String)
  | [], f, v => [(f, v)]
  | (g, w) :: rest, f, v => if g = f then (g, v) :: rest else (g, w) :: hashSet rest f v

/-- Pairs up the alternating field/value arguments of `HMSET`; `none` when a
field is left without a value. -/
def fieldPairs : List String → Option (List (String × String))
  | [] => some []
  | [_] => none
  | f :: v :: rest => (fieldPairs rest).map (fun ps => (f, v) :: ps)

/-- Redis `HMSET key field value [field value ...]`.  A call without a complete
field/value pair is rejected by the server and changes nothing. -/
def hmset (r : RedisClient) (key : String) (args : List JsValue) : RedisClient :=
  match fieldPairs (args.map JsValue.toArg) with
  | none => r
  | some [] => r
  | some (p :: ps) =>
    let h := (p :: ps).foldl (fun h q => hashSet h q.1 q.2) ((r.hashes key).getD [])
    { r with hashes := Function.update r.hashes key (some h) }

/-- Redis `HGETALL key`: the stored hash, `null` (`none`) when the key holds none. -/
def hgetall (r : RedisClient) (key : String) : Option (List (String × String)) := r.hashes key

/-- Redis `ZADD key score member`: the member's earlier entry, if any, is replaced. -/
def zadd (r : RedisClient) (key : String) (score : Int) (member : String) : RedisClient :=
  let rest := (r.zsets key).filter (fun e => decide (e.1 ≠ member))
  { r with zsets := Function.update r.zsets key (rest ++ [(member, score)]) }

/-- Redis `ZREM key member`.  Removing the last member removes the key and its TTL. -/
def zrem (r : RedisClient) (key : String) (member : String) : RedisClient :=
  let rest := (r.zsets key).filter (fun e => decide (e.1 ≠ member))
  { r with zsets := Function.update r.zsets key rest
           ttl := if rest.isEmpty && !(r.zsets key).isEmpty
                  then Function.update r.ttl key none else r.ttl }

/-- Redis `ZRANGEBYSCORE key min max LIMIT offset count`. -/
def zrangebyscore (r : RedisClient) (key : String) (min max : Int) (offset count : Nat) :
    List String :=
  (((((r.zsets key).filter (fun e => decide (min ≤ e.2 ∧ e.2 ≤ max))).insertionSort zorder).drop
    offset).take count).map Prod.fst

end RedisClient

/-- Reads a property of the object `HGETALL` returns (`undefined` when absent). -/
def prop (h : List (String × String)) (field : String) : Option String :=
  (h.find? (fun p => decide (p.1 = field))).map Prod.snd

/-! ## `DatabaseUtil` -/

/-- Modelled from the spec: `DatabaseUtil.flatten` is not among the sources.
`addTransfer` "stores the full Transfer record under its per-transfer key", so
the `[field, value]` entries are concatenated into the alternating argument
list of `HMSET`. -/
def flatten {α : Type} : List (List α) → List α
  | [] => []
  | x :: xs => x ++ flatten xs

/-- Modelled from the spec: the module `DatabaseUtil` is not among the sources.
Its functions are the fields: the key separator, the derivation of a
TransferId from a transfer, and the encoding of a TransferId to a sorted-set
member and back.  `idString` is the text `Array.prototype.join` renders a
TransferId as inside a key. -/
structure DatabaseUtil (Id : Type) where
  keySeparator : String
  getTransferId : Transfer → Id
  encodeTransferId : Id → String
  decodeTransferId : String → Id
  idString : Id → String

/-! ## `DatabaseClient` -/

/-- The client: namespace, TTL in seconds, and the utility module it calls. -/
structure DatabaseClient (Id : Type) where
  namespace_ : String
  cacheTtl : Nat
  util : DatabaseUtil Id

namespace DatabaseClient

variable {Id : Type}

/-- Method `addNamespace(baseKey)`. -/
def addNamespace (c : DatabaseClient Id) (baseKey : String) : String :=
  join2 c.namespace_ baseKey c.util.keySeparator

/-- Field `this.blockNumberKey`, set by the constructor. -/
def blockNumberKey (c : DatabaseClient Id) : String := c.addNamespace "block"

/-- Field `this.transfersKey`, set by the constructor. -/
def transfersKey (c : DatabaseClient Id) : String := c.addNamespace "transfers"

/-- Method `makeTransferKeyFromId(transferId)`. -/
def makeTransferKeyFromId (c : DatabaseClient Id) (transferId : Id) : String :=
  c.addNamespace (join2 "tx" (c.util.idString transferId) c.util.keySeparator)

/-- Method `makeTransferKey(transfer)`. -/
def makeTransferKey (c : DatabaseClient Id) (transfer : Transfer) : String :=
  c.makeTransferKeyFromId (c.util.getTransferId transfer)

/-- Method `getPendingBlockNumber()`: the reply and the state after the call. -/
def getPendingBlockNumber (c : DatabaseClient Id) (r : RedisClient) :
    Option JsNumber × RedisClient :=
  let blockNumber := r.get c.blockNumberKey
  (match blockNumber with
   | some s => some (Number s)
   | none => none, r)

/-- Method `setPendingBlockNumber(blockNumber)`. -/
def setPendingBlockNumber (c : DatabaseClient Id) (blockNumber : Nat) (r : RedisClient) :
    RedisClient :=
  r.setex c.blockNumberKey c.cacheTtl (JsValue.num blockNumber).toArg

/-- Method `addTransfer(transfer)`: the existence check, then the `MULTI` block. -/
def addTransfer (c : DatabaseClient Id) (transfer : Transfer) (r : RedisClient) : RedisClient :=
  let transferKey := c.makeTransferKey transfer
  let «exists» := decide (r.«exists» transferKey = 1)
  if !«exists» then
    let fields := flatten transfer.entries
    let transferId := c.util.getTransferId transfer
    (((r.hmset transferKey fields).expire transferKey c.cacheTtl).zadd c.transfersKey 0
      (c.util.encodeTransferId transferId)).expire c.transfersKey c.cacheTtl
  else r

/-- Method `nextTransfer()`: `Except.ok none` is `null`, `Except.error` a thrown error. -/
def nextTransfer (c : DatabaseClient Id) (r : RedisClient) :
    Except JsError (Option NextTransfer) × RedisClient :=
  let range := r.zrangebyscore c.transfersKey 0 0 0 1
  match range with
  | [] => (Except.ok none, r)
  | member :: _ =>
    let transferId := c.util.decodeTransferId member
    let transferKey := c.makeTransferKeyFromId transferId
    match r.hgetall transferKey with
    | none => (Except.error JsError.typeError, r)
    | some h =>
      (Except.ok (some
        { blockNumber := NumberOf (prop h "blockNumber")
          logIndex := NumberOf (prop h "logIndex")
          transactionHash := prop h "transactionHash"
          «from» := prop h "from"
          «to» := prop h "to"
          value := prop h "value"
          unit := prop h "unit" }), r)

/-- Method `removeTransfer(transfer)`. -/
def removeTransfer (c : DatabaseClient Id) (transfer : Transfer) (r : RedisClient) : RedisClient :=
  let transferId := c.util.getTransferId transfer
  r.zrem c.transfersKey (c.util.encodeTransferId transferId)

end DatabaseClient

/-! ## A concrete utility module and client for the examples -/

/-- The decimal digits of `n`, left-padded with zeros to `width` characters. -/
def padded (width n : Nat) : String :=
  ⟨List.replicate (width - (jsString n).data.length) '0' ++ (jsString n).data⟩

/-- A utility module with fixed-width zero-padded decimal identifiers, the
encoding the design notes of the specification name; identifiers are their
own encoding. -/
def paddedUtil : DatabaseUtil String :=
  { keySeparator := ":"
    getTransferId := fun t => padded 10 t.blockNumber ++ padded 10 t.logIndex
    encodeTransferId := fun id => id
    decodeTransferId := fun m => m
    idString := fun id => id }

/-- A client over `paddedUtil` with namespace `ercy` and a TTL of one hour. -/
def paddedClient : DatabaseClient String :=
  { namespace_ := "ercy", cacheTtl := 3600, util := paddedUtil }

/-- A transfer with the given block number and log index and fixed other fields. -/
def sampleTransfer (blockNumber logIndex : Nat) : Transfer :=
  { blockNumber := blockNumber, logIndex := logIndex, transactionHash := "0xabc",
    «from» := "0x01", «to» := "0x02", value := "1000", unit := "wei" }

/-! ## Notions used to state the properties -/

/-- The hash `HMSET` leaves under a key that held none: one field per entry
of the transfer, numbers in their decimal text. -/
def Transfer.stored (t : Transfer) : List (String × String) :=
  [("blockNumber", jsString t.blockNumber), ("logIndex", jsString t.logIndex),
   ("transactionHash", t.transactionHash), ("from", t.«from»), ("to", t.«to»),
   ("value", t.value), ("unit", t.unit)]

namespace DatabaseClient

variable {Id : Type}

/-- The sorted-set member of a transfer: its encoded TransferId. -/
def memberOf (c : DatabaseClient Id) (t : Transfer) : String :=
  c.util.encodeTransferId (c.util.getTransferId t)

/-- The entries of the queue. -/
def queue (c : DatabaseClient Id) (r : RedisClient) : List (String × Int) :=
  r.zsets c.transfersKey

/-- The number of queue entries whose member is the encoded TransferId of `t`. -/
def queueEntries (c : DatabaseClient Id) (r : RedisClient) (t : Transfer) : Nat :=
  ((c.queue r).filter (fun e => decide (e.1 = c.memberOf t))).length

/-- Admits the transfers of a list, first to last. -/
def addAll (c : DatabaseClient Id) (ts : List Transfer) (r : RedisClient) : RedisClient :=
  ts.foldl (fun s t => c.addTransfer t s) r

/-- Removes the transfers of a list, first to last. -/
def removeAll (c : DatabaseClient Id) (ts : List Transfer) (r : RedisClient) : RedisClient :=
  ts.foldl (fun s t => c.removeTransfer t s) r

/-- A call of one of the four queue operations. -/
inductive Call where
  | setPendingBlockNumber (blockNumber : Nat)
  | addTransfer (transfer : Transfer)
  | nextTransfer
  | removeTransfer (transfer : Transfer)

/-- The state after a call. -/
def step (c : DatabaseClient Id) (r : RedisClient) : Call → RedisClient
  | Call.setPendingBlockNumber n => c.setPendingBlockNumber n r
  | Call.addTransfer t => c.addTransfer t r
  | Call.nextTransfer => (c.nextTransfer r).2
  | Call.removeTransfer t => c.removeTransfer t r

/-- The state after a sequence of calls on the empty store. -/
def run (c : DatabaseClient Id) (calls : List Call) : RedisClient :=
  calls.foldl c.step RedisClient.empty

/-- Modelled from the spec: a TransferId is "decodable back to the
`(blockNumber, logIndex)` pair without loss".  Decoding loses nothing: a TransferId that went through the member
encoding and back names the same per-transfer key. -/
def Lossless (c : DatabaseClient Id) (t : Transfer) : Prop :=
  c.util.idString (c.util.decodeTransferId (c.memberOf t)) =
    c.util.idString (c.util.getTransferId t)

/-- Modelled from the spec: the encoding scheme must guarantee "no collision
between distinct TransferIds".  Transfers with different `(blockNumber, logIndex)` pairs
have different TransferIds. -/
def CollisionFree (c : DatabaseClient Id) (ts : List Transfer) : Prop :=
  ∀ a ∈ ts, ∀ b ∈ ts,
    c.util.idString (c.util.getTransferId a) = c.util.idString (c.util.getTransferId b) →
      a.pair = b.pair

/-- Modelled from the spec: "the encoded form preserves the
`(blockNumber, logIndex)` ordering when compared as produced by the
ordered-range query".  The member encoding preserves event order under the
byte-wise comparison of the sorted set. -/
def OrderPreserving (c : DatabaseClient Id) (ts : List Transfer) : Prop :=
  ∀ a ∈ ts, ∀ b ∈ ts, pairLt a.pair b.pair →
    lexLe (memberCodes (c.memberOf b)) (memberCodes (c.memberOf a)) = false

/-- Every queue entry is the member of a transfer whose key holds a hash. -/
def Backed (c : DatabaseClient Id) (r : RedisClient) : Prop :=
  ∀ e ∈ c.queue r, ∃ t, e.1 = c.memberOf t ∧ (r.hashes (c.makeTransferKey t)).isSome = true

/-- What holds of a store into which the transfers `done` were admitted,
starting from the empty store: only hashes and the queue are populated, each
queue entry has score zero and belongs to an admitted transfer whose own
record is stored, and each stored hash belongs to a queued admitted transfer. -/
structure Admitted (c : DatabaseClient Id) (done : List Transfer) (r : RedisClient) : Prop where
  strings_none : ∀ k, r.strings k = none
  zsets_nil : ∀ k, k ≠ c.transfersKey → r.zsets k = []
  entry : ∀ e ∈ c.queue r, e.2 = 0 ∧
    ∃ t ∈ done, e.1 = c.memberOf t ∧ r.hashes (c.makeTransferKey t) = some t.stored
  hash : ∀ k, (r.hashes k).isSome = true →
    ∃ t ∈ done, c.makeTransferKey t = k ∧ (c.memberOf t, (0 : Int)) ∈ c.queue r
  recorded : ∀ u ∈ done, (r.hashes (c.makeTransferKey u)).isSome = true

end DatabaseClient

/-- The store in which `sampleTransfer 10 2` was admitted and then removed. -/
def drainedStore : RedisClient :=
  paddedClient.removeTransfer (sampleTransfer 10 2)
    (paddedClient.addTransfer (sampleTransfer 10 2) RedisClient.empty)

/-- A store whose queue holds a member without a per-transfer record. -/
def danglingStore : RedisClient :=
  RedisClient.empty.zadd paddedClient.transfersKey 0 "00000000070000000001"

open DatabaseClient

/-! ## Numbers and their decimal text -/

theorem digitValue_digitChar (n : Nat) (h : n < 10) : digitValue (digitChar n) = some n := by
  interval_cases n <;> rfl

theorem parseDecimal_snoc (l : List Char) (c : Char) :
    parseDecimal (l ++ [c]) =
      (parseDecimal l).bind (fun a => (digitValue c).map (fun d => a * 10 + d)) := by
  simp [parseDecimal, List.foldl_append]

theorem parseDecimal_decimalRev (fuel : Nat) :
    ∀ n, n < fuel → parseDecimal (decimalRev fuel n).reverse = some n := by
  induction fuel with
  | zero => intro n h; omega
  | succ fuel ih =>
    intro n h
    unfold decimalRev
    by_cases h10 : n < 10
    · simp only [h10, if_true, List.reverse_singleton]
      have := parseDecimal_snoc [] (digitChar n)
      simp only [List.nil_append] at this
      rw [this, digitValue_digitChar n h10]
      simp [parseDecimal]
    · simp only [h10, if_false, List.reverse_cons]
      rw [parseDecimal_snoc, ih (n / 10) (by omega), digitValue_digitChar _ (Nat.mod_lt _ (by omega))]
      simp only [Option.some_bind, Option.map_some']
      congr 1
      omega

theorem Number_jsString (n : Nat) : Number (jsString n) = JsNumber.int n := by
  simp [Number, jsString, parseDecimal_decimalRev (n + 1) n (Nat.lt_succ_self n)]

/-! ## Keys -/

theorem makeTransferKeyFromId_ne_transfersKey {Id : Type} (c : DatabaseClient Id) (id : Id) :
    c.makeTransferKeyFromId id ≠ c.transfersKey := by
  intro h
  have h2 := congrArg String.data h
  simp only [DatabaseClient.makeTransferKeyFromId, DatabaseClient.transfersKey,
    DatabaseClient.addNamespace, join2, String.data_append, List.append_assoc,
    List.append_cancel_left_eq] at h2
  simp at h2

theorem makeTransferKeyFromId_ne_blockNumberKey {Id : Type} (c : DatabaseClient Id) (id : Id) :
    c.makeTransferKeyFromId id ≠ c.blockNumberKey := by
  intro h
  have h2 := congrArg String.data h
  simp only [DatabaseClient.makeTransferKeyFromId, DatabaseClient.blockNumberKey,
    DatabaseClient.addNamespace, join2, String.data_append, List.append_assoc,
    List.append_cancel_left_eq] at h2
  simp at h2

theorem blockNumberKey_ne_transfersKey {Id : Type} (c : DatabaseClient Id) :
    c.blockNumberKey ≠ c.transfersKey := by
  intro h
  have h2 := congrArg String.data h
  simp only [DatabaseClient.blockNumberKey, DatabaseClient.transfersKey,
    DatabaseClient.addNamespace, join2, String.data_append, List.append_assoc,
    List.append_cancel_left_eq] at h2
  simp at h2

/-! ## Frame lemmas for the Redis commands -/

section frames

variable (r : RedisClient) (key : String) (seconds : Nat)

theorem expire_strings : (r.expire key seconds).strings = r.strings := by
  unfold RedisClient.expire; split <;> rfl

theorem expire_hashes : (r.expire key seconds).hashes = r.hashes := by
  unfold RedisClient.expire; split <;> rfl

theorem expire_zsets : (r.expire key seconds).zsets = r.zsets := by
  unfold RedisClient.expire; split <;> rfl

theorem exists_eq_one_iff :
    r.«exists» key = 1 ↔
      ((r.strings key).isSome = true ∨ (r.hashes key).isSome = true ∨ r.zsets key ≠ []) := by
  unfold RedisClient.«exists»
  cases h1 : (r.strings key).isSome <;> cases h2 : (r.hashes key).isSome <;>
    cases h3 : r.zsets key <;> simp

theorem hmset_entries_fresh (t : Transfer) (h : r.hashes key = none) :
    (r.hmset key (flatten t.entries)).hashes = Function.update r.hashes key (some t.stored) := by
  simp [RedisClient.hmset, flatten, Transfer.entries, RedisClient.fieldPairs, JsValue.toArg,
    RedisClient.hashSet, h, Transfer.stored]

theorem hmset_strings (args : List JsValue) : (r.hmset key args).strings = r.strings := by
  unfold RedisClient.hmset; split <;> rfl

theorem hmset_zsets (args : List JsValue) : (r.hmset key args).zsets = r.zsets := by
  unfold RedisClient.hmset; split <;> rfl

end frames

section addTransfer

variable {Id : Type} (c : DatabaseClient Id) (t : Transfer) (r : RedisClient)

theorem addTransfer_of_exists (h : r.«exists» (c.makeTransferKey t) = 1) :
    c.addTransfer t r = r := by
  simp [DatabaseClient.addTransfer, h]

theorem addTransfer_strings : (c.addTransfer t r).strings = r.strings := by
  unfold DatabaseClient.addTransfer
  simp only []
  split
  · simp only [expire_strings, RedisClient.zadd, hmset_strings]
  · rfl

theorem addTransfer_hashes_fresh (h : r.«exists» (c.makeTransferKey t) ≠ 1) :
    (c.addTransfer t r).hashes = Function.update r.hashes (c.makeTransferKey t) (some t.stored) := by
  have hn : r.hashes (c.makeTransferKey t) = none := by
    rw [Ne, exists_eq_one_iff] at h
    push_neg at h
    simpa using h.2.1
  simp only [DatabaseClient.addTransfer, h, decide_False, Bool.not_false, if_true,
    expire_hashes, RedisClient.zadd]
  exact hmset_entries_fresh r _ t hn

theorem addTransfer_zsets_fresh (h : r.«exists» (c.makeTransferKey t) ≠ 1) :
    (c.addTransfer t r).zsets = Function.update r.zsets c.transfersKey
      ((c.queue r).filter (fun e => decide (e.1 ≠ c.memberOf t)) ++ [(c.memberOf t, 0)]) := by
  simp only [DatabaseClient.addTransfer, h, decide_False, Bool.not_false, if_true,
    expire_zsets, RedisClient.zadd, hmset_zsets, DatabaseClient.queue, DatabaseClient.memberOf]

theorem addTransfer_exists : (c.addTransfer t r).«exists» (c.makeTransferKey t) = 1 := by
  by_cases h : r.«exists» (c.makeTransferKey t) = 1
  · rw [addTransfer_of_exists c t r h]; exact h
  · rw [exists_eq_one_iff, addTransfer_hashes_fresh c t r h]
    simp

end addTransfer

section removeTransfer

variable {Id : Type} (c : DatabaseClient Id) (t : Transfer) (r : RedisClient)

theorem removeTransfer_strings : (c.removeTransfer t r).strings = r.strings := rfl

theorem removeTransfer_hashes : (c.removeTransfer t r).hashes = r.hashes := rfl

theorem removeTransfer_queue :
    c.queue (c.removeTransfer t r) =
      (c.queue r).filter (fun e => decide (e.1 ≠ c.memberOf t)) := by
  simp [DatabaseClient.queue, DatabaseClient.removeTransfer, RedisClient.zrem,
    DatabaseClient.memberOf]

theorem removeTransfer_zsets_other (k : String) (hk : k ≠ c.transfersKey) :
    (c.removeTransfer t r).zsets k = r.zsets k := by
  simp [DatabaseClient.removeTransfer, RedisClient.zrem, Function.update_noteq hk]

theorem removeTransfer_absent (h : ∀ e ∈ c.queue r, e.1 ≠ c.memberOf t) :
    c.removeTransfer t r = r := by
  have hf : (r.zsets c.transfersKey).filter
      (fun e => decide (e.1 ≠ c.util.encodeTransferId (c.util.getTransferId t))) =
      r.zsets c.transfersKey := by
    rw [List.filter_eq_self]
    intro e he
    simpa using h e he
  cases r with
  | mk strings hashes zsets ttl =>
    simp only [DatabaseClient.removeTransfer, RedisClient.zrem] at hf ⊢
    rw [hf]
    simp

theorem removeTransfer_ttl_other (k : String) (hk : k ≠ c.transfersKey) :
    (c.removeTransfer t r).ttl k = r.ttl k := by
  simp only [DatabaseClient.removeTransfer, RedisClient.zrem]
  split
  · exact Function.update_noteq hk _ _
  · rfl

theorem removeTransfer_ttl_nonempty (h : c.queue (c.removeTransfer t r) ≠ []) :
    (c.removeTransfer t r).ttl = r.ttl := by
  rw [removeTransfer_queue] at h
  simp only [DatabaseClient.removeTransfer, RedisClient.zrem]
  split
  · rename_i hc
    simp only [Bool.and_eq_true, List.isEmpty_iff] at hc
    exact absurd hc.1 h
  · rfl

theorem removeTransfer_mem_queue (e : String × Int) :
    e ∈ c.queue (c.removeTransfer t r) ↔ (e ∈ c.queue r ∧ e.1 ≠ c.memberOf t) := by
  rw [removeTransfer_queue]
  simp [List.mem_filter]

theorem removeTransfer_queueEntries : c.queueEntries (c.removeTransfer t r) t = 0 := by
  unfold DatabaseClient.queueEntries
  rw [removeTransfer_queue, List.filter_filter, List.length_eq_zero, List.filter_eq_nil_iff]
  intro e _
  by_cases he : e.1 = c.memberOf t <;> simp [he]

theorem removeTransfer_exists_key (u : Transfer) :
    (c.removeTransfer t r).«exists» (c.makeTransferKey u) = r.«exists» (c.makeTransferKey u) := by
  have hk : c.makeTransferKey u ≠ c.transfersKey := makeTransferKeyFromId_ne_transfersKey c _
  unfold RedisClient.«exists»
  rw [removeTransfer_zsets_other c t r _ hk]
  rfl

end removeTransfer

/-! ## Peek, block number, removal, admission -/

/-- C3: `nextTransfer` is a peek. It leaves the store (queue membership,
per-transfer records, block-number scalar and recorded TTLs) exactly as it
was, so a second call right after the first gives the same reply. -/
theorem nextTransfer_peek {Id : Type} (c : DatabaseClient Id) (r : RedisClient) :
    (c.nextTransfer r).2 = r ∧
      (c.nextTransfer (c.nextTransfer r).2).1 = (c.nextTransfer r).1 := by
  have h : (c.nextTransfer r).2 = r := by
    unfold DatabaseClient.nextTransfer
    simp only []
    split
    · rfl
    · split <;> rfl
  exact ⟨h, by rw [h]⟩

/-- C5: block-number round trip. After `setPendingBlockNumber(n)`,
`getPendingBlockNumber()` returns the number `n`, whatever was stored before. -/
theorem getPendingBlockNumber_setPendingBlockNumber {Id : Type} (c : DatabaseClient Id)
    (n : Nat) (r : RedisClient) :
    (c.getPendingBlockNumber (c.setPendingBlockNumber n r)).1 = some (JsNumber.int n) := by
  simp [DatabaseClient.getPendingBlockNumber, DatabaseClient.setPendingBlockNumber,
    RedisClient.get, RedisClient.setex, JsValue.toArg, Number_jsString]

/-- C4: `removeTransfer(t)` only takes the encoded TransferId of `t` out of
the queue. The block-number scalar and every per-transfer record (the one of
`t` included) are unchanged, every other sorted set is unchanged, the queue
keeps exactly its entries with another member, in their order, and when `t`
is not in the queue the whole state is unchanged. Recorded TTLs stay as they
were, except that of the queue key when the queue ends empty (Redis drops an
emptied key). The call has no failing outcome. -/
theorem removeTransfer_frame {Id : Type} (c : DatabaseClient Id) (t : Transfer)
    (r : RedisClient) :
    (c.removeTransfer t r).strings = r.strings ∧
    (c.removeTransfer t r).hashes = r.hashes ∧
    (∀ k, k ≠ c.transfersKey → (c.removeTransfer t r).zsets k = r.zsets k) ∧
    c.queue (c.removeTransfer t r) = (c.queue r).filter (fun e => decide (e.1 ≠ c.memberOf t)) ∧
    (∀ e, e ∈ c.queue (c.removeTransfer t r) ↔ (e ∈ c.queue r ∧ e.1 ≠ c.memberOf t)) ∧
    c.queueEntries (c.removeTransfer t r) t = 0 ∧
    (∀ k, k ≠ c.transfersKey → (c.removeTransfer t r).ttl k = r.ttl k) ∧
    (c.queue (c.removeTransfer t r) ≠ [] → (c.removeTransfer t r).ttl = r.ttl) ∧
    ((∀ e ∈ c.queue r, e.1 ≠ c.memberOf t) → c.removeTransfer t r = r) := by
  exact ⟨rfl, rfl, removeTransfer_zsets_other c t r, removeTransfer_queue c t r,
    removeTransfer_mem_queue c t r, removeTransfer_queueEntries c t r,
    removeTransfer_ttl_other c t r, removeTransfer_ttl_nonempty c t r,
    removeTransfer_absent c t r⟩

/-- C10: a dangling membership entry. When the range query yields a member
whose per-transfer key holds no hash, `nextTransfer` fails with a type error
(neither `null` nor a transfer) and the store is left as it was, the member
still in the queue. -/
theorem nextTransfer_dangling {Id : Type} (c : DatabaseClient Id) (r : RedisClient)
    (member : String) (rest : List String)
    (hrange : r.zrangebyscore c.transfersKey 0 0 0 1 = member :: rest)
    (hrecord : r.hgetall (c.makeTransferKeyFromId (c.util.decodeTransferId member)) = none) :
    c.nextTransfer r = (Except.error JsError.typeError, r) := by
  unfold DatabaseClient.nextTransfer
  simp only [hrange, hrecord]

/-- C10, on `danglingStore`: the queue holds one member, no record is stored
for it, and `nextTransfer` fails leaving the store as it was. -/
theorem nextTransfer_dangling_witness :
    danglingStore.zrangebyscore paddedClient.transfersKey 0 0 0 1 = ["00000000070000000001"] ∧
    danglingStore.hgetall (paddedClient.makeTransferKeyFromId
      (paddedClient.util.decodeTransferId "00000000070000000001")) = none ∧
    paddedClient.nextTransfer danglingStore = (Except.error JsError.typeError, danglingStore) :=
  ⟨rfl, rfl, nextTransfer_dangling paddedClient danglingStore "00000000070000000001" [] rfl rfl⟩

/-- C9: a transfer is queued only if it was never added before. After
`addTransfer(t)`, `removeTransfer(t)`, `addTransfer(t)` the encoded
TransferId of `t` is not in the queue: the second `addTransfer` finds the key
of the record still present and changes nothing. -/
theorem addTransfer_after_removeTransfer {Id : Type} (c : DatabaseClient Id) (t : Transfer)
    (r : RedisClient) :
    c.addTransfer t (c.removeTransfer t (c.addTransfer t r)) =
        c.removeTransfer t (c.addTransfer t r) ∧
      c.queueEntries (c.addTransfer t (c.removeTransfer t (c.addTransfer t r))) t = 0 ∧
      ∀ e ∈ c.queue (c.addTransfer t (c.removeTransfer t (c.addTransfer t r))),
        e.1 ≠ c.memberOf t := by
  have h : c.addTransfer t (c.removeTransfer t (c.addTransfer t r)) =
      c.removeTransfer t (c.addTransfer t r) := by
    apply addTransfer_of_exists
    rw [removeTransfer_exists_key]
    exact addTransfer_exists c t r
  refine ⟨h, ?_, ?_⟩
  · rw [h]; exact removeTransfer_queueEntries c t _
  · rw [h]
    intro e he
    exact ((removeTransfer_mem_queue c t _ e).1 he).2

/-- C2, as stated, fails on `drainedStore` (admit `sampleTransfer 10 2`, then
remove it): the record is still stored, so admitting the transfer twice more
leaves no queue entry for it, not one. -/
theorem addTransfer_twice_drained :
    drainedStore.«exists» (paddedClient.makeTransferKey (sampleTransfer 10 2)) = 1 ∧
    paddedClient.queueEntries
      (paddedClient.addTransfer (sampleTransfer 10 2)
        (paddedClient.addTransfer (sampleTransfer 10 2) drainedStore))
      (sampleTransfer 10 2) = 0 ∧
    ¬ paddedClient.queueEntries
      (paddedClient.addTransfer (sampleTransfer 10 2)
        (paddedClient.addTransfer (sampleTransfer 10 2) drainedStore))
      (sampleTransfer 10 2) = 1 := by
  refine ⟨by rfl, by rfl, ?_⟩
  have h : paddedClient.queueEntries
      (paddedClient.addTransfer (sampleTransfer 10 2)
        (paddedClient.addTransfer (sampleTransfer 10 2) drainedStore))
      (sampleTransfer 10 2) = 0 := by rfl
  rw [h]
  decide

/-- C2, amended: `addTransfer` is idempotent. Calling it twice with `t`
gives the state one call gives; afterwards the key of the record of `t`
exists. When the key existed before, the call changes nothing (the record and
the queue entries of `t` are as they were); when it did not, the record of
`t` is stored under it and the queue holds exactly one entry for the
TransferId of `t`. -/
theorem addTransfer_idempotent {Id : Type} (c : DatabaseClient Id) (t : Transfer)
    (r : RedisClient) :
    c.addTransfer t (c.addTransfer t r) = c.addTransfer t r ∧
    (c.addTransfer t r).«exists» (c.makeTransferKey t) = 1 ∧
    (c.addTransfer t r).hashes (c.makeTransferKey t) =
      (if r.«exists» (c.makeTransferKey t) = 1 then r.hashes (c.makeTransferKey t)
       else some t.stored) ∧
    c.queueEntries (c.addTransfer t r) t =
      (if r.«exists» (c.makeTransferKey t) = 1 then c.queueEntries r t else 1) := by
  refine ⟨addTransfer_of_exists c t _ (addTransfer_exists c t r), addTransfer_exists c t r, ?_, ?_⟩
  · by_cases h : r.«exists» (c.makeTransferKey t) = 1
    · rw [addTransfer_of_exists c t r h, if_pos h]
    · rw [addTransfer_hashes_fresh c t r h, if_neg h]
      simp
  · by_cases h : r.«exists» (c.makeTransferKey t) = 1
    · rw [addTransfer_of_exists c t r h, if_pos h]
    · rw [if_neg h]
      unfold DatabaseClient.queueEntries DatabaseClient.queue
      rw [addTransfer_zsets_fresh c t r h]
      simp only [Function.update_same, List.filter_append, List.filter_filter, List.length_append]
      have h0 : (c.queue r).filter
          (fun e => decide (e.1 = c.memberOf t) && decide (e.1 ≠ c.memberOf t)) = [] := by
        rw [List.filter_eq_nil_iff]
        intro e _
        by_cases he : e.1 = c.memberOf t <;> simp [he]
      rw [h0]
      simp

/-! ## The order of the sorted set -/

theorem lexLe_refl : ∀ a : List Nat, lexLe a a = true
  | [] => rfl
  | x :: xs => by simp [lexLe, lexLe_refl xs]

theorem lexLe_total : ∀ a b : List Nat, lexLe a b = true ∨ lexLe b a = true
  | [], _ => Or.inl rfl
  | _ :: _, [] => Or.inr rfl
  | x :: xs, y :: ys => by
    rcases Nat.lt_trichotomy x y with h | h | h
    · left; simp [lexLe, h]
    · subst h
      rcases lexLe_total xs ys with h2 | h2
      · left; simp [lexLe, h2]
      · right; simp [lexLe, h2]
    · right; simp [lexLe, h]

theorem lexLe_trans : ∀ a b c : List Nat, lexLe a b = true → lexLe b c = true → lexLe a c = true
  | [], _, _, _, _ => rfl
  | _ :: _, [], _, h, _ => by simp [lexLe] at h
  | _ :: _, _ :: _, [], _, h => by simp [lexLe] at h
  | x :: xs, y :: ys, z :: zs, h1, h2 => by
    simp only [lexLe, Bool.or_eq_true, decide_eq_true_eq, Bool.and_eq_true] at h1 h2 ⊢
    rcases h1 with h1 | ⟨h1, h1'⟩
    · rcases h2 with h2 | ⟨h2, _⟩
      · left; omega
      · left; omega
    · rcases h2 with h2 | ⟨h2, h2'⟩
      · left; omega
      · right; exact ⟨by omega, lexLe_trans xs ys zs h1' h2'⟩

instance : IsTotal (String × Int) zorder where
  total a b := by
    unfold zorder
    rcases lt_trichotomy a.2 b.2 with h | h | h
    · exact Or.inl (Or.inl h)
    · rcases lexLe_total (memberCodes a.1) (memberCodes b.1) with h2 | h2
      · exact Or.inl (Or.inr ⟨h, h2⟩)
      · exact Or.inr (Or.inr ⟨h.symm, h2⟩)
    · exact Or.inr (Or.inl h)

instance : IsTrans (String × Int) zorder where
  trans a b c h1 h2 := by
    unfold zorder at *
    rcases h1 with h1 | ⟨h1, h1'⟩
    · rcases h2 with h2 | ⟨h2, _⟩
      · exact Or.inl (lt_trans h1 h2)
      · exact Or.inl (h2 ▸ h1)
    · rcases h2 with h2 | ⟨h2, h2'⟩
      · exact Or.inl (h1 ▸ h2)
      · exact Or.inr ⟨h1.trans h2, lexLe_trans _ _ _ h1' h2'⟩

/-- On a sorted set without entries the range query is empty. -/
theorem zrangebyscore_nil (r : RedisClient) (key : String) (min max : Int) (offset count : Nat)
    (h : r.zsets key = []) : r.zrangebyscore key min max offset count = [] := by
  simp [RedisClient.zrangebyscore, h]

/-- On a non-empty sorted set whose scores are all zero, the range query of
`nextTransfer` yields one member, and no member of the set is below it. -/
theorem zrangebyscore_least (r : RedisClient) (key : String)
    (hne : r.zsets key ≠ []) (hscore : ∀ e ∈ r.zsets key, e.2 = 0) :
    ∃ e ∈ r.zsets key, r.zrangebyscore key 0 0 0 1 = [e.1] ∧
      ∀ e' ∈ r.zsets key, lexLe (memberCodes e.1) (memberCodes e'.1) = true := by
  have hfilter : (r.zsets key).filter (fun e => decide ((0 : Int) ≤ e.2 ∧ e.2 ≤ 0)) =
      r.zsets key := by
    rw [List.filter_eq_self]
    intro e he
    simp [hscore e he]
  have hperm := List.perm_insertionSort zorder (r.zsets key)
  have hsorted := List.sorted_insertionSort zorder (r.zsets key)
  unfold RedisClient.zrangebyscore
  rw [hfilter]
  cases hL : List.insertionSort zorder (r.zsets key) with
  | nil =>
    rw [hL] at hperm
    exact absurd hperm.symm.eq_nil hne
  | cons e L =>
    rw [hL] at hperm hsorted
    refine ⟨e, hperm.subset (List.mem_cons_self e L), by simp, ?_⟩
    intro e' he'
    have hmem : e' ∈ e :: L := hperm.symm.subset he'
    rcases List.mem_cons.1 hmem with h | h
    · rw [h]; exact lexLe_refl _
    · have hz : zorder e e' := List.rel_of_sorted_cons hsorted e' h
      unfold zorder at hz
      have h1 := hscore e (hperm.subset (List.mem_cons_self e L))
      have h2 := hscore e' he'
      rcases hz with hz | ⟨_, hz⟩
      · omega
      · exact hz

/-! ## Reading a stored record back -/

theorem makeTransferKeyFromId_of_lossless {Id : Type} (c : DatabaseClient Id) (t : Transfer)
    (h : c.Lossless t) :
    c.makeTransferKeyFromId (c.util.decodeTransferId (c.memberOf t)) = c.makeTransferKey t := by
  unfold DatabaseClient.Lossless at h
  simp only [DatabaseClient.makeTransferKeyFromId, DatabaseClient.makeTransferKey, h]

theorem nextTransfer_of_stored {Id : Type} (c : DatabaseClient Id) (r : RedisClient)
    (t : Transfer) (rest : List String)
    (hrange : r.zrangebyscore c.transfersKey 0 0 0 1 = c.memberOf t :: rest)
    (hl : c.Lossless t) (hrecord : r.hashes (c.makeTransferKey t) = some t.stored) :
    (c.nextTransfer r).1 = Except.ok (some t.toNext) := by
  unfold DatabaseClient.nextTransfer
  simp only [hrange, makeTransferKeyFromId_of_lossless c t hl, RedisClient.hgetall, hrecord]
  simp [prop, Transfer.stored, Transfer.toNext, NumberOf, Number_jsString]

section queue

variable {Id : Type} (c : DatabaseClient Id)

theorem nextTransfer_state (r : RedisClient) : (c.nextTransfer r).2 = r := by
  unfold DatabaseClient.nextTransfer
  simp only []
  split
  · rfl
  · split <;> rfl

theorem nextTransfer_of_queue_nil (r : RedisClient) (h : c.queue r = []) :
    (c.nextTransfer r).1 = Except.ok none := by
  unfold DatabaseClient.nextTransfer
  simp only [zrangebyscore_nil r c.transfersKey 0 0 0 1 h]

theorem exists_empty (key : String) : RedisClient.empty.«exists» key ≠ 1 := by
  simp [RedisClient.«exists», RedisClient.empty]

theorem addTransfer_queue_fresh (t : Transfer) (r : RedisClient)
    (h : r.«exists» (c.makeTransferKey t) ≠ 1) :
    c.queue (c.addTransfer t r) =
      (c.queue r).filter (fun e => decide (e.1 ≠ c.memberOf t)) ++ [(c.memberOf t, 0)] := by
  rw [DatabaseClient.queue, addTransfer_zsets_fresh c t r h, Function.update_same]

theorem mem_queue_addTransfer (t : Transfer) (r : RedisClient) (e : String × Int)
    (he : e ∈ c.queue (c.addTransfer t r)) : e ∈ c.queue r ∨ e = (c.memberOf t, 0) := by
  by_cases h : r.«exists» (c.makeTransferKey t) = 1
  · rw [addTransfer_of_exists c t r h] at he
    exact Or.inl he
  · rw [addTransfer_queue_fresh c t r h, List.mem_append, List.mem_filter] at he
    rcases he with he | he
    · exact Or.inl he.1
    · exact Or.inr (by simpa using he)

theorem mem_queue_addAll (ts : List Transfer) :
    ∀ (r : RedisClient) (e : String × Int), e ∈ c.queue (c.addAll ts r) →
      e ∈ c.queue r ∨ ∃ t ∈ ts, e.1 = c.memberOf t := by
  induction ts with
  | nil => intro r e he; exact Or.inl he
  | cons t ts ih =>
    intro r e he
    rcases ih (c.addTransfer t r) e he with h | ⟨u, hu, hm⟩
    · rcases mem_queue_addTransfer c t r e h with h | h
      · exact Or.inl h
      · exact Or.inr ⟨t, List.mem_cons_self t ts, by rw [h]⟩
    · exact Or.inr ⟨u, List.mem_cons_of_mem t hu, hm⟩

theorem mem_queue_removeAll (rs : List Transfer) :
    ∀ (r : RedisClient) (e : String × Int), e ∈ c.queue (c.removeAll rs r) →
      e ∈ c.queue r ∧ ∀ t ∈ rs, e.1 ≠ c.memberOf t := by
  induction rs with
  | nil => intro r e he; exact ⟨he, by simp⟩
  | cons t rs ih =>
    intro r e he
    have h := ih (c.removeTransfer t r) e he
    have h1 := (removeTransfer_mem_queue c t r e).1 h.1
    refine ⟨h1.1, ?_⟩
    intro u hu
    rcases List.mem_cons.1 hu with hu | hu
    · rw [hu]; exact h1.2
    · exact h.2 u hu

end queue

/-- C7: admit-then-peek round trip. On the empty store, `addTransfer(t)`
followed by `nextTransfer()` returns the record of `t` field for field:
`blockNumber` and `logIndex` as the same numbers, the five other fields as
the same strings. The TransferId of `t` is assumed to come back from its
member encoding naming the same key, as the specification requires of the
encoding. -/
theorem nextTransfer_addTransfer {Id : Type} (c : DatabaseClient Id) (t : Transfer)
    (hl : c.Lossless t) :
    (c.nextTransfer (c.addTransfer t RedisClient.empty)).1 = Except.ok (some t.toNext) := by
  have hfresh := exists_empty (c.makeTransferKey t)
  apply nextTransfer_of_stored c _ t [] _ hl
  · rw [addTransfer_hashes_fresh c t _ hfresh, Function.update_same]
  · have hq := addTransfer_queue_fresh c t _ hfresh
    unfold DatabaseClient.queue at hq
    unfold RedisClient.zrangebyscore
    rw [hq]
    simp [RedisClient.empty]

/-- C7, on `sampleTransfer 10 2` with the zero-padded encoding. -/
theorem nextTransfer_addTransfer_witness :
    paddedClient.Lossless (sampleTransfer 10 2) ∧
    (paddedClient.nextTransfer
      (paddedClient.addTransfer (sampleTransfer 10 2) RedisClient.empty)).1 =
      Except.ok (some
        { blockNumber := JsNumber.int 10, logIndex := JsNumber.int 2,
          transactionHash := some "0xabc", «from» := some "0x01", «to» := some "0x02",
          value := some "1000", unit := some "wei" }) :=
  ⟨rfl, nextTransfer_addTransfer paddedClient (sampleTransfer 10 2) rfl⟩

/-- C8: empty queue. `nextTransfer` returns `null` on the empty store, and
also after a list of transfers was admitted into the empty store and every
one of them was removed again (the removals in any order, possibly among
others). -/
theorem nextTransfer_empty_queue {Id : Type} (c : DatabaseClient Id) (ts rs : List Transfer)
    (hall : ∀ t ∈ ts, t ∈ rs) :
    (c.nextTransfer RedisClient.empty).1 = Except.ok none ∧
    (c.nextTransfer (c.removeAll rs (c.addAll ts RedisClient.empty))).1 = Except.ok none := by
  refine ⟨nextTransfer_of_queue_nil c _ rfl, nextTransfer_of_queue_nil c _ ?_⟩
  rw [List.eq_nil_iff_forall_not_mem]
  intro e he
  have h1 := mem_queue_removeAll c rs _ e he
  rcases mem_queue_addAll c ts _ e h1.1 with h | ⟨t, ht, hm⟩
  · simp [DatabaseClient.queue, RedisClient.empty] at h
  · exact h1.2 t (hall t ht) hm

/-- C8, on three transfers admitted as in the ordering example and removed
in another order. -/
theorem nextTransfer_empty_queue_witness :
    (∀ t ∈ [sampleTransfer 10 2, sampleTransfer 10 0, sampleTransfer 9 5],
      t ∈ [sampleTransfer 9 5, sampleTransfer 10 2, sampleTransfer 10 0]) ∧
    (paddedClient.nextTransfer RedisClient.empty).1 = Except.ok none ∧
    (paddedClient.nextTransfer
      (paddedClient.removeAll [sampleTransfer 9 5, sampleTransfer 10 2, sampleTransfer 10 0]
        (paddedClient.addAll [sampleTransfer 10 2, sampleTransfer 10 0, sampleTransfer 9 5]
          RedisClient.empty))).1 = Except.ok none :=
  ⟨by decide, nextTransfer_empty_queue paddedClient
    [sampleTransfer 10 2, sampleTransfer 10 0, sampleTransfer 9 5]
    [sampleTransfer 9 5, sampleTransfer 10 2, sampleTransfer 10 0] (by decide)⟩

section reachable

variable {Id : Type} (c : DatabaseClient Id)

theorem backed_empty : Backed c RedisClient.empty := by
  intro e he
  simp [DatabaseClient.queue, RedisClient.empty] at he

theorem backed_addTransfer (u : Transfer) (r : RedisClient) (h : Backed c r) :
    Backed c (c.addTransfer u r) := by
  by_cases hx : r.«exists» (c.makeTransferKey u) = 1
  · rw [addTransfer_of_exists c u r hx]; exact h
  · intro e he
    rw [addTransfer_hashes_fresh c u r hx]
    rcases mem_queue_addTransfer c u r e he with he | he
    · obtain ⟨t, ht, hs⟩ := h e he
      refine ⟨t, ht, ?_⟩
      by_cases hk : c.makeTransferKey t = c.makeTransferKey u
      · rw [hk, Function.update_same]; rfl
      · rw [Function.update_noteq hk]; exact hs
    · refine ⟨u, by rw [he], ?_⟩
      rw [Function.update_same]; rfl

theorem backed_step (r : RedisClient) (call : Call) (h : Backed c r) : Backed c (c.step r call) := by
  cases call with
  | setPendingBlockNumber n => exact h
  | addTransfer t => exact backed_addTransfer c t r h
  | nextTransfer =>
    show Backed c (c.nextTransfer r).2
    rw [nextTransfer_state]; exact h
  | removeTransfer t =>
    intro e he
    exact h e ((removeTransfer_mem_queue c t r e).1 he).1

theorem backed_foldl (calls : List Call) :
    ∀ r, Backed c r → Backed c (calls.foldl c.step r) := by
  induction calls with
  | nil => intro r h; exact h
  | cons call calls ih => intro r h; exact ih _ (backed_step c r call h)

end reachable

/-- C6: while in the queue a transfer's record is retrievable. In every
state reached from the empty store by a sequence of `setPendingBlockNumber`,
`addTransfer`, `nextTransfer` and `removeTransfer` calls, each member of the
queue decodes to a TransferId whose per-transfer key, the key `nextTransfer`
looks up, holds a stored record. TransferIds are assumed to come back from
their member encoding naming the same key, as the specification requires of
the encoding. -/
theorem queue_member_has_record {Id : Type} (c : DatabaseClient Id)
    (hl : ∀ t, c.Lossless t) (calls : List Call) (e : String × Int)
    (he : e ∈ c.queue (c.run calls)) :
    ∃ h, (c.run calls).hgetall
      (c.makeTransferKeyFromId (c.util.decodeTransferId e.1)) = some h := by
  obtain ⟨t, ht, hs⟩ := backed_foldl c calls _ (backed_empty c) e he
  rw [ht, makeTransferKeyFromId_of_lossless c t (hl t)]
  exact Option.isSome_iff_exists.1 hs

/-- C6, on a run that sets the block number, admits three transfers, peeks,
and removes one: the member of `sampleTransfer 10 0` is still queued and its
record is stored. -/
theorem queue_member_has_record_witness :
    (∀ t, paddedClient.Lossless t) ∧
    (("00000000100000000000", (0 : Int)) ∈ paddedClient.queue (paddedClient.run
      [Call.setPendingBlockNumber 42, Call.addTransfer (sampleTransfer 10 2),
       Call.addTransfer (sampleTransfer 10 0), Call.addTransfer (sampleTransfer 9 5),
       Call.nextTransfer, Call.removeTransfer (sampleTransfer 9 5)])) ∧
    ∃ h, (paddedClient.run
      [Call.setPendingBlockNumber 42, Call.addTransfer (sampleTransfer 10 2),
       Call.addTransfer (sampleTransfer 10 0), Call.addTransfer (sampleTransfer 9 5),
       Call.nextTransfer, Call.removeTransfer (sampleTransfer 9 5)]).hgetall
      (paddedClient.makeTransferKeyFromId
        (paddedClient.util.decodeTransferId "00000000100000000000")) = some h :=
  ⟨fun _ => rfl, by decide,
    queue_member_has_record paddedClient (fun _ => rfl) _ ("00000000100000000000", 0)
      (by decide)⟩

section admitted

variable {Id : Type} (c : DatabaseClient Id)

theorem admitted_empty : Admitted c [] RedisClient.empty where
  strings_none := fun _ => rfl
  zsets_nil := fun _ _ => rfl
  entry := by
    intro e he
    simp [DatabaseClient.queue, RedisClient.empty] at he
  hash := by
    intro k hk
    simp [RedisClient.empty] at hk
  recorded := by
    intro u hu
    simp at hu

theorem makeTransferKey_inj (a b : Transfer) (h : c.makeTransferKey a = c.makeTransferKey b) :
    c.util.idString (c.util.getTransferId a) = c.util.idString (c.util.getTransferId b) := by
  have h2 := congrArg String.data h
  simp only [DatabaseClient.makeTransferKey, DatabaseClient.makeTransferKeyFromId,
    DatabaseClient.addNamespace, join2, String.data_append, List.append_assoc,
    List.append_cancel_left_eq] at h2
  exact String.ext h2

theorem admitted_addTransfer (done : List Transfer) (u : Transfer) (r : RedisClient)
    (h : Admitted c done r) : Admitted c (done ++ [u]) (c.addTransfer u r) := by
  have hkey : c.makeTransferKey u ≠ c.transfersKey := makeTransferKeyFromId_ne_transfersKey c _
  by_cases hx : r.«exists» (c.makeTransferKey u) = 1
  · rw [addTransfer_of_exists c u r hx]
    have hsome : (r.hashes (c.makeTransferKey u)).isSome = true := by
      rw [exists_eq_one_iff] at hx
      rcases hx with hx | hx | hx
      · rw [h.strings_none] at hx; simp at hx
      · exact hx
      · exact absurd (h.zsets_nil _ hkey) hx
    refine ⟨h.strings_none, h.zsets_nil, ?_, ?_, ?_⟩
    · intro e he
      obtain ⟨h0, t, ht, hm, hr⟩ := h.entry e he
      exact ⟨h0, t, List.mem_append_left _ ht, hm, hr⟩
    · intro k hk
      obtain ⟨t, ht, hk2, hq⟩ := h.hash k hk
      exact ⟨t, List.mem_append_left _ ht, hk2, hq⟩
    · intro v hv
      rcases List.mem_append.1 hv with hv | hv
      · exact h.recorded v hv
      · rw [List.mem_singleton.1 hv]; exact hsome
  · have hnone : r.hashes (c.makeTransferKey u) = none := by
      have hx2 := hx
      rw [exists_eq_one_iff] at hx2
      push_neg at hx2
      simpa using hx2.2.1
    have hq := addTransfer_queue_fresh c u r hx
    have hh := addTransfer_hashes_fresh c u r hx
    have hz := addTransfer_zsets_fresh c u r hx
    have hlast : (c.memberOf u, (0 : Int)) ∈ c.queue (c.addTransfer u r) := by
      rw [hq]; simp
    refine ⟨?_, ?_, ?_, ?_, ?_⟩
    · intro k
      rw [addTransfer_strings]; exact h.strings_none k
    · intro k hk
      rw [hz, Function.update_noteq hk]; exact h.zsets_nil k hk
    · intro e he
      rcases mem_queue_addTransfer c u r e he with he | he
      · obtain ⟨h0, t, ht, hm, hr⟩ := h.entry e he
        refine ⟨h0, t, List.mem_append_left _ ht, hm, ?_⟩
        have hk : c.makeTransferKey t ≠ c.makeTransferKey u := by
          intro hk
          rw [hk, hnone] at hr
          exact Option.noConfusion hr
        rw [hh, Function.update_noteq hk]; exact hr
      · refine ⟨by rw [he], u, by simp, by rw [he], ?_⟩
        rw [hh, Function.update_same]
    · intro k hk
      by_cases hku : k = c.makeTransferKey u
      · exact ⟨u, by simp, hku.symm, hlast⟩
      · rw [hh, Function.update_noteq hku] at hk
        obtain ⟨t, ht, hk2, hq2⟩ := h.hash k hk
        refine ⟨t, List.mem_append_left _ ht, hk2, ?_⟩
        by_cases hm : c.memberOf t = c.memberOf u
        · rw [hm]; exact hlast
        · rw [hq, List.mem_append, List.mem_filter]
          left
          exact ⟨hq2, by simpa using hm⟩
    · intro v hv
      rw [hh]
      by_cases hk : c.makeTransferKey v = c.makeTransferKey u
      · rw [hk, Function.update_same]; rfl
      · rw [Function.update_noteq hk]
        rcases List.mem_append.1 hv with hv | hv
        · exact h.recorded v hv
        · exact absurd (by rw [List.mem_singleton.1 hv]) hk

theorem admitted_addAll (ts : List Transfer) :
    ∀ (done : List Transfer) (r : RedisClient), Admitted c done r →
      Admitted c (done ++ ts) (c.addAll ts r) := by
  induction ts with
  | nil => intro done r h; simpa [DatabaseClient.addAll] using h
  | cons t ts ih =>
    intro done r h
    have := ih (done ++ [t]) (c.addTransfer t r) (admitted_addTransfer c done t r h)
    simpa [DatabaseClient.addAll] using this

theorem pairLe_of_not_pairLt (a b : Nat × Nat) (h : ¬ pairLt b a) : pairLe a b := by
  unfold pairLt at h
  unfold pairLe
  push_neg at h
  rcases Nat.lt_trichotomy a.1 b.1 with h1 | h1 | h1
  · exact Or.inl h1
  · exact Or.inr ⟨h1, h.2 h1.symm⟩
  · exact absurd h1 (Nat.not_lt.2 h.1)

end admitted

/-- C1: after admitting the transfers of a non-empty list into the empty
store, in the order of the list, `nextTransfer` returns the record of an
admitted transfer whose `(blockNumber, logIndex)` pair is the smallest of all
admitted pairs, lower block number first, then lower log index. The encoding
of TransferIds is assumed to be as the specification requires: decoded
without loss, free of collisions, and order preserving under the byte-wise
comparison of the sorted set. -/
theorem nextTransfer_least {Id : Type} (c : DatabaseClient Id) (ts : List Transfer)
    (hne : ts ≠ []) (hl : ∀ t ∈ ts, c.Lossless t) (hc : c.CollisionFree ts)
    (ho : c.OrderPreserving ts) :
    ∃ t ∈ ts, (c.nextTransfer (c.addAll ts RedisClient.empty)).1 = Except.ok (some t.toNext) ∧
      ∀ u ∈ ts, pairLe t.pair u.pair := by
  have hA : Admitted c ts (c.addAll ts RedisClient.empty) := by
    simpa using admitted_addAll c ts [] _ (admitted_empty c)
  obtain ⟨t0, ht0⟩ := List.exists_mem_of_ne_nil ts hne
  obtain ⟨t1, _, _, hq1⟩ := hA.hash _ (hA.recorded t0 ht0)
  have hqne : (c.addAll ts RedisClient.empty).zsets c.transfersKey ≠ [] :=
    List.ne_nil_of_mem hq1
  obtain ⟨e, he, hrange, hleast⟩ := zrangebyscore_least _ c.transfersKey hqne
    (fun e he => (hA.entry e he).1)
  obtain ⟨_, t, ht, hm, hr⟩ := hA.entry e he
  refine ⟨t, ht, ?_, ?_⟩
  · rw [hm] at hrange
    exact nextTransfer_of_stored c _ t [] hrange (hl t ht) hr
  · intro u hu
    obtain ⟨v, hv, hk, hqv⟩ := hA.hash _ (hA.recorded u hu)
    have hpair : v.pair = u.pair := hc v hv u hu (makeTransferKey_inj c v u hk)
    rw [← hpair]
    apply pairLe_of_not_pairLt
    intro hlt
    have h1 := ho v hv t ht hlt
    have h2 := hleast _ hqv
    rw [hm] at h2
    simp only [] at h2
    rw [h1] at h2
    exact Bool.noConfusion h2

/-- C1, on the ordering example: `(10,2)`, `(10,0)`, `(9,5)` admitted in
that order with the zero-padded encoding; `nextTransfer` returns a record
whose pair is the smallest, and the record returned is the one keyed `(9,5)`. -/
theorem nextTransfer_least_witness :
    (∀ t ∈ [sampleTransfer 10 2, sampleTransfer 10 0, sampleTransfer 9 5],
      paddedClient.Lossless t) ∧
    paddedClient.CollisionFree [sampleTransfer 10 2, sampleTransfer 10 0, sampleTransfer 9 5] ∧
    paddedClient.OrderPreserving [sampleTransfer 10 2, sampleTransfer 10 0, sampleTransfer 9 5] ∧
    (paddedClient.nextTransfer (paddedClient.addAll
      [sampleTransfer 10 2, sampleTransfer 10 0, sampleTransfer 9 5] RedisClient.empty)).1 =
      Except.ok (some (sampleTransfer 9 5).toNext) ∧
    ∃ t ∈ [sampleTransfer 10 2, sampleTransfer 10 0, sampleTransfer 9 5],
      (paddedClient.nextTransfer (paddedClient.addAll
        [sampleTransfer 10 2, sampleTransfer 10 0, sampleTransfer 9 5] RedisClient.empty)).1 =
        Except.ok (some t.toNext) ∧
      ∀ u ∈ [sampleTransfer 10 2, sampleTransfer 10 0, sampleTransfer 9 5],
        pairLe t.pair u.pair :=
  ⟨fun _ _ => rfl, by unfold DatabaseClient.CollisionFree; decide,
    by unfold DatabaseClient.OrderPreserving; decide, rfl,
    nextTransfer_least paddedClient _ (by decide) (fun _ _ => rfl)
      (by unfold DatabaseClient.CollisionFree; decide)
      (by unfold DatabaseClient.OrderPreserving; decide)⟩

end ErcyBot
